import Mathlib

/-!
Shallow embedding of the article deduplication engine of
sociaty_newsletter_generator (src/sociaty_newsletter_generator/models.py,
class SetOfUniqueArticles), together with theorems about its behaviour.

Python strings are modelled as lists of characters.  Python dictionaries
(which are insertion ordered: assignment to an existing key updates the
value in place, deletion removes the entry, and a later re-insertion of
the same key appends at the end) are modelled as association lists with
the operations odGet, odSet and odPop below.
-/

set_option autoImplicit false

namespace Sociaty

/-- A Python string, modelled as its list of characters. -/
abbrev PStr := List Char

/-- Lookup in an insertion-ordered dictionary (Python d.get(k) / k in d). -/
def odGet {K V : Type} [DecidableEq K] (k : K) : List (K × V) → Option V
  | [] => none
  | p :: rest => if p.1 = k then some p.2 else odGet k rest

/-- Assignment d[k] = v in an insertion-ordered dictionary: an existing key
keeps its position and gets the new value; a fresh key is appended at the
end. -/
def odSet {K V : Type} [DecidableEq K] (k : K) (v : V) : List (K × V) → List (K × V)
  | [] => [(k, v)]
  | p :: rest => if p.1 = k then (k, v) :: rest else p :: odSet k v rest

/-- Removal d.pop(k, None) in an insertion-ordered dictionary. -/
def odPop {K V : Type} [DecidableEq K] (k : K) : List (K × V) → List (K × V)
  | [] => []
  | p :: rest => if p.1 = k then rest else p :: odPop k rest

/-- The date field of an article: either a plain calendar date or a datetime
carrying a time of day, as in the Python date | datetime union. -/
inductive PyDate : Type
  | onlyDate (day : Int)
  | withTime (day : Int) (seconds : Nat)
deriving DecidableEq

/-- SetOfUniqueArticles._normalize_date: extract the calendar-date part,
dropping the time of day of a datetime. -/
def normalizeDate : PyDate → Int
  | .onlyDate d => d
  | .withTime d _ => d

/-- The attributes of an Article record that the deduplication engine reads.
The id is optional (absent for records not yet persisted); other payload
fields (image, source, region, ...) never influence the engine. -/
structure Article : Type where
  id : Option PStr
  title : PStr
  url : PStr
  body : PStr
  date : PyDate
deriving DecidableEq

/-- Python s.strip(): drop leading and trailing whitespace. -/
def pyStrip (s : PStr) : PStr :=
  ((s.dropWhile Char.isWhitespace).reverse.dropWhile Char.isWhitespace).reverse

/-- SetOfUniqueArticles._normalize_string: s.strip().lower(). -/
def normalizeString (s : PStr) : PStr :=
  (pyStrip s).map Char.toLower

/-- SetOfUniqueArticles._generate_title_date_key: the pair of the normalized
title and the normalized date. -/
def titleDateKey (a : Article) : PStr × Int :=
  (normalizeString a.title, normalizeDate a.date)

/-- The state of a SetOfUniqueArticles instance: the three internal
insertion-ordered dictionaries. -/
structure SetOfUniqueArticles : Type where
  articles_by_id : List (PStr × Article)
  articles_by_url : List (PStr × Article)
  articles_by_title_date : List ((PStr × Int) × Article)
deriving DecidableEq

/-- The state right after __init__ with no input data. -/
def emptySet : SetOfUniqueArticles := ⟨[], [], []⟩

/-- SetOfUniqueArticles._add_article_to_all_dicts. -/
def addToAllDicts (s : SetOfUniqueArticles) (a : Article) (key : PStr × Int) :
    SetOfUniqueArticles where
  articles_by_id :=
    match a.id with
    | some i => odSet i a s.articles_by_id
    | none => s.articles_by_id
  articles_by_url := odSet a.url a s.articles_by_url
  articles_by_title_date := odSet key a s.articles_by_title_date

/-- SetOfUniqueArticles._remove_article_from_all_dicts. -/
def removeFromAllDicts (s : SetOfUniqueArticles) (a : Article) :
    SetOfUniqueArticles where
  articles_by_id :=
    match a.id with
    | some i => odPop i s.articles_by_id
    | none => s.articles_by_id
  articles_by_url := odPop a.url s.articles_by_url
  articles_by_title_date := odPop (titleDateKey a) s.articles_by_title_date

/-- The guard of the first early return of add_article: the record carries a
truthy id that is already a key of articles_by_id. -/
def idMatches (s : SetOfUniqueArticles) (a : Article) : Bool :=
  match a.id with
  | some i => (odGet i s.articles_by_id).isSome
  | none => false

/-- SetOfUniqueArticles.add_article.  The Python guard
floor(len(existing_body) * 0.9) is rendered as len * 9 / 10 in natural
division: for every length up to the 1000-character cap on bodies the IEEE
double product len * 0.9 floors to exactly that value. -/
def add_article (s : SetOfUniqueArticles) (article : Article) : SetOfUniqueArticles :=
  if idMatches s article then s
  else if (odGet article.url s.articles_by_url).isSome then s
  else
    let title_date_key := titleDateKey article
    let normalized_body := normalizeString article.body
    match odGet title_date_key s.articles_by_title_date with
    | none => addToAllDicts s article title_date_key
    | some existing_article =>
      let existing_body := normalizeString existing_article.body
      if normalized_body ≠ existing_body ∧
          (existing_body.take (existing_body.length * 9 / 10)).isPrefixOf
            normalized_body = true then
        addToAllDicts (removeFromAllDicts s existing_article) article title_date_key
      else s

/-- SetOfUniqueArticles.get_articles: the values of articles_by_title_date
in insertion order. -/
def get_articles (s : SetOfUniqueArticles) : List Article :=
  s.articles_by_title_date.map Prod.snd

/-- SetOfUniqueArticles.__len__. -/
def setSize (s : SetOfUniqueArticles) : Nat :=
  s.articles_by_title_date.length

/-- SetOfUniqueArticles.__bool__. -/
def setNonempty (s : SetOfUniqueArticles) : Bool :=
  !s.articles_by_title_date.isEmpty

/-- __init__ seeded with a list of articles: each is fed to add_article in
input order. -/
def ofList (l : List Article) : SetOfUniqueArticles :=
  l.foldl add_article emptySet

/-- SetOfUniqueArticles.limit: a fresh set seeded with the first n articles
of the ordered retrieval. -/
def limit (s : SetOfUniqueArticles) (n : Nat) : SetOfUniqueArticles :=
  ofList ((get_articles s).take n)

/-- A well-formed dictionary has pairwise distinct keys. -/
def KeysNodup {K V : Type} (l : List (K × V)) : Prop := (l.map Prod.fst).Nodup

/-- Invariant of a reachable SetOfUniqueArticles state: every index has
pairwise distinct keys, and the three indices are mutually consistent. -/
structure Inv (s : SetOfUniqueArticles) : Prop where
  nodup_id : KeysNodup s.articles_by_id
  nodup_url : KeysNodup s.articles_by_url
  nodup_td : KeysNodup s.articles_by_title_date
  td_key : ∀ k a, odGet k s.articles_by_title_date = some a → k = titleDateKey a
  td_url : ∀ k a, odGet k s.articles_by_title_date = some a →
    odGet a.url s.articles_by_url = some a
  td_id : ∀ k a i, odGet k s.articles_by_title_date = some a → a.id = some i →
    odGet i s.articles_by_id = some a
  url_key : ∀ u a, odGet u s.articles_by_url = some a → u = a.url
  url_td : ∀ u a, odGet u s.articles_by_url = some a →
    odGet (titleDateKey a) s.articles_by_title_date = some a
  id_key : ∀ i a, odGet i s.articles_by_id = some a → a.id = some i
  id_td : ∀ i a, odGet i s.articles_by_id = some a →
    odGet (titleDateKey a) s.articles_by_title_date = some a

/-- The body-prefix guard of add_article, written out. -/
def dominates (existing new : Article) : Prop :=
  normalizeString new.body ≠ normalizeString existing.body ∧
    ((normalizeString existing.body).take
      ((normalizeString existing.body).length * 9 / 10)).isPrefixOf
      (normalizeString new.body) = true

instance (existing new : Article) : Decidable (dominates existing new) := by
  unfold dominates
  infer_instance

/-- A record hitting none of the three indices of a state. -/
def FreshFor (s : SetOfUniqueArticles) (a : Article) : Prop :=
  (∀ i, a.id = some i → odGet i s.articles_by_id = none) ∧
    odGet a.url s.articles_by_url = none ∧
    odGet (titleDateKey a) s.articles_by_title_date = none

/-- Two records sharing no identity key at all. -/
def Distinct2 (a b : Article) : Prop :=
  (∀ i, a.id = some i → b.id ≠ some i) ∧ a.url ≠ b.url ∧
    titleDateKey a ≠ titleDateKey b

/-! Concrete article records used by witnesses and counterexamples. -/

/-- Convenience constructor for id-less records. -/
def mkArticle (t u b : String) (d : Int) : Article where
  id := none
  title := t.toList
  url := u.toList
  body := b.toList
  date := PyDate.onlyDate d

def artK1 : Article := mkArticle "Alpha" "https://news.example/k1" "alpha body" 1
def artK2 : Article := mkArticle "Beta" "https://news.example/k2" "Hello world" 2
def artK3 : Article := mkArticle "Gamma" "https://news.example/k3" "gamma body" 3
def artK2b : Article := mkArticle "Beta" "https://news.example/k2b" "Hello world." 2

def artHelloA : Article where
  id := some "idA".toList
  title := "Stocks rally".toList
  url := "https://news.example/a".toList
  body := "Hello world".toList
  date := PyDate.withTime 20 3600

def artHelloB : Article where
  id := some "idB".toList
  title := " stocks RALLY ".toList
  url := "https://news.example/b".toList
  body := "Hello world.".toList
  date := PyDate.withTime 20 7200

def artId1 : Article where
  id := some "xyz".toList
  title := "One".toList
  url := "https://news.example/one".toList
  body := "first body".toList
  date := PyDate.onlyDate 11

def artId2 : Article where
  id := some "xyz".toList
  title := "Two".toList
  url := "https://news.example/two".toList
  body := "a much longer and more detailed body".toList
  date := PyDate.onlyDate 12

def artStock : Article :=
  mkArticle "Market" "https://news.example/m1" "The stock market rose today" 7

def artStock2 : Article :=
  mkArticle "Market" "https://news.example/m2" "Completely unrelated content" 7

def tenArticles : List Article :=
  [mkArticle "N1" "https://e.com/1" "b1" 1,
    mkArticle "N2" "https://e.com/2" "b2" 2,
    mkArticle "N3" "https://e.com/3" "b3" 3,
    mkArticle "N4" "https://e.com/4" "b4" 4,
    mkArticle "N5" "https://e.com/5" "b5" 5,
    mkArticle "N6" "https://e.com/6" "b6" 6,
    mkArticle "N7" "https://e.com/7" "b7" 7,
    mkArticle "N8" "https://e.com/8" "b8" 8,
    mkArticle "N9" "https://e.com/9" "b9" 9,
    mkArticle "N10" "https://e.com/10" "b10" 10]

def artEleventh : Article := mkArticle "N11" "https://e.com/11" "b11" 11

def artLong : Article :=
  mkArticle "Daily" "https://news.example/long" "Hello world." 9

def artShort : Article :=
  mkArticle "Daily" "https://news.example/short" "Hello world" 9

def artEmptyBody : Article :=
  mkArticle "Quiet day" "https://news.example/q1" "" 4

def artFullBody : Article :=
  mkArticle "Quiet day" "https://news.example/q2" "Markets were quiet." 4

/-! Lemmas about the ordered-dictionary operations. -/

section OdLemmas

variable {K V : Type} [DecidableEq K]

@[simp] theorem odGet_nil {k : K} : odGet k ([] : List (K × V)) = none := rfl

@[simp] theorem odGet_cons {k : K} {p : K × V} {l : List (K × V)} :
    odGet k (p :: l) = if p.1 = k then some p.2 else odGet k l := rfl

theorem odGet_odSet {k k' : K} {v : V} (l : List (K × V)) :
    odGet k' (odSet k v l) = if k = k' then some v else odGet k' l := by
  induction l with
  | nil => by_cases h : k = k' <;> simp [odSet, h]
  | cons p rest ih =>
    by_cases hp : p.1 = k
    · by_cases h : k = k' <;> simp [odSet, hp, h, hp ▸ h]
    · simp only [odSet, if_neg hp, odGet_cons, ih]
      by_cases h : k = k'
      · simp [h, h ▸ hp]
      · simp [h]

theorem odGet_odPop_ne {k k' : K} (h : k' ≠ k) (l : List (K × V)) :
    odGet k' (odPop k l) = odGet k' l := by
  induction l with
  | nil => rfl
  | cons p rest ih =>
    by_cases hp : p.1 = k
    · have hpk : p.1 ≠ k' := fun hh => h (hh ▸ hp)
      simp [odPop, hp, hpk, Ne.symm h]
    · simp [odPop, hp, ih]

theorem odGet_eq_none_iff {k : K} {l : List (K × V)} :
    odGet k l = none ↔ ∀ p ∈ l, p.1 ≠ k := by
  induction l with
  | nil => simp
  | cons p rest ih =>
    by_cases hp : p.1 = k <;> simp [hp, ih]

theorem odPop_of_none {k : K} {l : List (K × V)} (h : odGet k l = none) :
    odPop k l = l := by
  induction l with
  | nil => rfl
  | cons p rest ih =>
    rw [odGet_eq_none_iff] at h
    have hp : p.1 ≠ k := h p (by simp)
    simp only [odPop, if_neg hp]
    rw [ih (odGet_eq_none_iff.mpr fun q hq => h q (by simp [hq]))]

theorem odGet_odPop_self {k : K} {l : List (K × V)} (h : KeysNodup l) :
    odGet k (odPop k l) = none := by
  induction l with
  | nil => rfl
  | cons p rest ih =>
    have h1 : p.1 ∉ rest.map Prod.fst := (List.nodup_cons.mp h).1
    have h2 : KeysNodup rest := (List.nodup_cons.mp h).2
    by_cases hp : p.1 = k
    · simp only [odPop, if_pos hp]
      rw [odGet_eq_none_iff]
      intro q hq hqk
      exact h1 (hp ▸ hqk ▸ List.mem_map_of_mem Prod.fst hq)
    · simp [odPop, hp, ih h2]

theorem odSet_of_none {k : K} {v : V} {l : List (K × V)} (h : odGet k l = none) :
    odSet k v l = l ++ [(k, v)] := by
  induction l with
  | nil => rfl
  | cons p rest ih =>
    rw [odGet_eq_none_iff] at h
    have hp : p.1 ≠ k := h p (by simp)
    simp only [odSet, if_neg hp, List.cons_append, List.cons.injEq, true_and]
    exact ih (odGet_eq_none_iff.mpr fun q hq => h q (by simp [hq]))

theorem length_odPop_of_some {k : K} {v : V} {l : List (K × V)}
    (h : odGet k l = some v) : (odPop k l).length + 1 = l.length := by
  induction l with
  | nil => simp at h
  | cons p rest ih =>
    by_cases hp : p.1 = k
    · simp [odPop, hp]
    · simp only [odGet_cons, if_neg hp] at h
      simp [odPop, hp, ih h]

theorem length_odSet_of_some {k : K} {v w : V} {l : List (K × V)}
    (h : odGet k l = some w) : (odSet k v l).length = l.length := by
  induction l with
  | nil => simp at h
  | cons p rest ih =>
    by_cases hp : p.1 = k
    · simp [odSet, hp]
    · simp only [odGet_cons, if_neg hp] at h
      simp [odSet, hp, ih h]

theorem keys_odSet_subset {k : K} {v : V} (l : List (K × V)) :
    ((odSet k v l).map Prod.fst) ⊆ k :: l.map Prod.fst := by
  induction l with
  | nil => exact fun x hx => hx
  | cons p rest ih =>
    by_cases hp : p.1 = k
    · simp only [odSet, if_pos hp, List.map_cons]
      intro x hx
      rcases List.mem_cons.mp hx with hx | hx
      · exact List.mem_cons.mpr (Or.inl hx)
      · exact List.mem_cons_of_mem _ (List.mem_cons_of_mem _ hx)
    · simp only [odSet, if_neg hp, List.map_cons]
      intro x hx
      rcases List.mem_cons.mp hx with hx | hx
      · exact List.mem_cons_of_mem _ (List.mem_cons.mpr (Or.inl hx))
      · rcases List.mem_cons.mp (ih hx) with hy | hy
        · exact List.mem_cons.mpr (Or.inl hy)
        · exact List.mem_cons_of_mem _ (List.mem_cons_of_mem _ hy)

theorem keysNodup_odSet {k : K} {v : V} {l : List (K × V)} (h : KeysNodup l) :
    KeysNodup (odSet k v l) := by
  induction l with
  | nil =>
    simp only [KeysNodup, odSet, List.map_cons, List.map_nil]
    exact List.nodup_singleton k
  | cons p rest ih =>
    have h1 : p.1 ∉ rest.map Prod.fst := (List.nodup_cons.mp h).1
    have h2 : KeysNodup rest := (List.nodup_cons.mp h).2
    by_cases hp : p.1 = k
    · simp only [KeysNodup, odSet, if_pos hp, List.map_cons]
      exact List.nodup_cons.mpr ⟨hp ▸ h1, h2⟩
    · simp only [KeysNodup, odSet, if_neg hp, List.map_cons]
      refine List.nodup_cons.mpr ⟨?_, ih h2⟩
      intro hmem
      rcases List.mem_cons.mp (keys_odSet_subset rest hmem) with hx | hx
      · exact hp hx
      · exact h1 hx

theorem keys_odPop_subset {k : K} (l : List (K × V)) :
    ((odPop k l).map Prod.fst) ⊆ l.map Prod.fst := by
  induction l with
  | nil => exact fun x hx => hx
  | cons p rest ih =>
    by_cases hp : p.1 = k
    · simp only [odPop, if_pos hp, List.map_cons]
      exact fun x hx => List.mem_cons_of_mem _ hx
    · simp only [odPop, if_neg hp, List.map_cons]
      intro x hx
      rcases List.mem_cons.mp hx with hx | hx
      · exact List.mem_cons.mpr (Or.inl hx)
      · exact List.mem_cons_of_mem _ (ih hx)

theorem keysNodup_odPop {k : K} {l : List (K × V)} (h : KeysNodup l) :
    KeysNodup (odPop k l) := by
  induction l with
  | nil => exact h
  | cons p rest ih =>
    have h1 : p.1 ∉ rest.map Prod.fst := (List.nodup_cons.mp h).1
    have h2 : KeysNodup rest := (List.nodup_cons.mp h).2
    by_cases hp : p.1 = k
    · simpa only [KeysNodup, odPop, if_pos hp] using h2
    · simp only [KeysNodup, odPop, if_neg hp, List.map_cons]
      exact List.nodup_cons.mpr ⟨fun hmem => h1 (keys_odPop_subset rest hmem), ih h2⟩

theorem odGet_of_mem {k : K} {v : V} {l : List (K × V)} (h : KeysNodup l)
    (hm : (k, v) ∈ l) : odGet k l = some v := by
  induction l with
  | nil => simp at hm
  | cons p rest ih =>
    have h1 : p.1 ∉ rest.map Prod.fst := (List.nodup_cons.mp h).1
    have h2 : KeysNodup rest := (List.nodup_cons.mp h).2
    rcases List.mem_cons.mp hm with hm | hm
    · simp [← hm]
    · have hp : p.1 ≠ k := by
        intro hpk
        exact h1 (hpk ▸ List.mem_map_of_mem Prod.fst hm)
      simp [hp, ih h2 hm]

theorem mem_of_odGet {k : K} {v : V} {l : List (K × V)}
    (h : odGet k l = some v) : (k, v) ∈ l := by
  induction l with
  | nil => simp at h
  | cons p rest ih =>
    by_cases hp : p.1 = k
    · simp only [odGet_cons, if_pos hp, Option.some.injEq] at h
      exact List.mem_cons.mpr (Or.inl (by rw [← hp, ← h]))
    · simp only [odGet_cons, if_neg hp] at h
      exact List.mem_cons_of_mem _ (ih h)

end OdLemmas

/-! Lookup characterizations of the two internal index-update helpers. -/

theorem addToAll_lookup_id (s : SetOfUniqueArticles) (a : Article)
    (key : PStr × Int) (j : PStr) :
    odGet j (addToAllDicts s a key).articles_by_id =
      if a.id = some j then some a else odGet j s.articles_by_id := by
  cases ha : a.id with
  | none => simp [addToAllDicts, ha]
  | some i =>
    simp only [addToAllDicts, ha, odGet_odSet]
    by_cases hij : i = j
    · simp [hij]
    · simp [hij]

theorem addToAll_lookup_url (s : SetOfUniqueArticles) (a : Article)
    (key : PStr × Int) (u : PStr) :
    odGet u (addToAllDicts s a key).articles_by_url =
      if a.url = u then some a else odGet u s.articles_by_url :=
  odGet_odSet _

theorem addToAll_lookup_td (s : SetOfUniqueArticles) (a : Article)
    (key : PStr × Int) (k' : PStr × Int) :
    odGet k' (addToAllDicts s a key).articles_by_title_date =
      if key = k' then some a else odGet k' s.articles_by_title_date :=
  odGet_odSet _

theorem remove_lookup_id {s : SetOfUniqueArticles}
    (hn : KeysNodup s.articles_by_id) (E : Article) (j : PStr) :
    odGet j (removeFromAllDicts s E).articles_by_id =
      if E.id = some j then none else odGet j s.articles_by_id := by
  cases hE : E.id with
  | none => simp [removeFromAllDicts, hE]
  | some i =>
    simp only [removeFromAllDicts, hE]
    by_cases hij : i = j
    · subst hij
      simp [odGet_odPop_self hn]
    · simp [hij, odGet_odPop_ne (fun hh => hij hh.symm)]

theorem remove_lookup_url {s : SetOfUniqueArticles}
    (hn : KeysNodup s.articles_by_url) (E : Article) (u : PStr) :
    odGet u (removeFromAllDicts s E).articles_by_url =
      if E.url = u then none else odGet u s.articles_by_url := by
  by_cases hu : E.url = u
  · subst hu
    simp [removeFromAllDicts, odGet_odPop_self hn]
  · simp [removeFromAllDicts, hu, odGet_odPop_ne (fun hh => hu hh.symm)]

theorem remove_lookup_td {s : SetOfUniqueArticles}
    (hn : KeysNodup s.articles_by_title_date) (E : Article) (k' : PStr × Int) :
    odGet k' (removeFromAllDicts s E).articles_by_title_date =
      if titleDateKey E = k' then none else
        odGet k' s.articles_by_title_date := by
  by_cases hk : titleDateKey E = k'
  · subst hk
    simp [removeFromAllDicts, odGet_odPop_self hn]
  · simp [removeFromAllDicts, hk, odGet_odPop_ne (fun hh => hk hh.symm)]

/-! The three-key consistency invariant maintained by the engine. -/

theorem inv_emptySet : Inv emptySet := by
  constructor <;> simp [emptySet, KeysNodup]

/-- Inserting a record that collides with no index preserves the invariant. -/
theorem inv_addToAll {s : SetOfUniqueArticles} {a : Article} (hInv : Inv s)
    (hid : ∀ i, a.id = some i → odGet i s.articles_by_id = none)
    (hurl : odGet a.url s.articles_by_url = none)
    (htd : odGet (titleDateKey a) s.articles_by_title_date = none) :
    Inv (addToAllDicts s a (titleDateKey a)) := by
  have lid := addToAll_lookup_id s a (titleDateKey a)
  have lurl := addToAll_lookup_url s a (titleDateKey a)
  have ltd := addToAll_lookup_td s a (titleDateKey a)
  constructor
  · cases ha : a.id with
    | none => simpa [addToAllDicts, ha] using hInv.nodup_id
    | some i =>
      simp only [addToAllDicts, ha]
      exact keysNodup_odSet hInv.nodup_id
  · exact keysNodup_odSet hInv.nodup_url
  · exact keysNodup_odSet hInv.nodup_td
  · intro k b hb
    rw [ltd k] at hb
    by_cases hk : titleDateKey a = k
    · rw [if_pos hk] at hb
      cases hb
      exact hk.symm
    · rw [if_neg hk] at hb
      exact hInv.td_key k b hb
  · intro k b hb
    rw [ltd k] at hb
    rw [lurl b.url]
    by_cases hk : titleDateKey a = k
    · rw [if_pos hk] at hb
      cases hb
      simp
    · rw [if_neg hk] at hb
      have hold := hInv.td_url k b hb
      have hne : a.url ≠ b.url := by
        intro hu
        rw [hu] at hurl
        rw [hurl] at hold
        cases hold
      rw [if_neg hne]
      exact hold
  · intro k b i hb hbi
    rw [ltd k] at hb
    rw [lid i]
    by_cases hk : titleDateKey a = k
    · rw [if_pos hk] at hb
      cases hb
      rw [if_pos hbi]
    · rw [if_neg hk] at hb
      have hold := hInv.td_id k b i hb hbi
      have hne : a.id ≠ some i := by
        intro hai
        rw [hid i hai] at hold
        cases hold
      rw [if_neg hne]
      exact hold
  · intro u b hb
    rw [lurl u] at hb
    by_cases hu : a.url = u
    · rw [if_pos hu] at hb
      cases hb
      exact hu.symm
    · rw [if_neg hu] at hb
      exact hInv.url_key u b hb
  · intro u b hb
    rw [lurl u] at hb
    rw [ltd (titleDateKey b)]
    by_cases hu : a.url = u
    · rw [if_pos hu] at hb
      cases hb
      simp
    · rw [if_neg hu] at hb
      have hold := hInv.url_td u b hb
      have hne : titleDateKey a ≠ titleDateKey b := by
        intro hk
        rw [hk] at htd
        rw [htd] at hold
        cases hold
      rw [if_neg hne]
      exact hold
  · intro i b hb
    rw [lid i] at hb
    by_cases hi : a.id = some i
    · rw [if_pos hi] at hb
      cases hb
      exact hi
    · rw [if_neg hi] at hb
      exact hInv.id_key i b hb
  · intro i b hb
    rw [lid i] at hb
    rw [ltd (titleDateKey b)]
    by_cases hi : a.id = some i
    · rw [if_pos hi] at hb
      cases hb
      simp
    · rw [if_neg hi] at hb
      have hold := hInv.id_td i b hb
      have hne : titleDateKey a ≠ titleDateKey b := by
        intro hk
        rw [hk] at htd
        rw [htd] at hold
        cases hold
      rw [if_neg hne]
      exact hold

/-- Removing a retained record preserves the invariant. -/
theorem inv_remove {s : SetOfUniqueArticles} {E : Article} (hInv : Inv s)
    (hE : odGet (titleDateKey E) s.articles_by_title_date = some E) :
    Inv (removeFromAllDicts s E) := by
  have lid := remove_lookup_id hInv.nodup_id E
  have lurl := remove_lookup_url hInv.nodup_url E
  have ltd := remove_lookup_td hInv.nodup_td E
  have hEurl : odGet E.url s.articles_by_url = some E :=
    hInv.td_url (titleDateKey E) E hE
  have hEid : ∀ j, E.id = some j → odGet j s.articles_by_id = some E :=
    fun j hj => hInv.td_id (titleDateKey E) E j hE hj
  constructor
  · cases hEi : E.id with
    | none => simpa [removeFromAllDicts, hEi] using hInv.nodup_id
    | some i =>
      simp only [removeFromAllDicts, hEi]
      exact keysNodup_odPop hInv.nodup_id
  · exact keysNodup_odPop hInv.nodup_url
  · exact keysNodup_odPop hInv.nodup_td
  · intro k b hb
    rw [ltd k] at hb
    by_cases hk : titleDateKey E = k
    · rw [if_pos hk] at hb
      cases hb
    · rw [if_neg hk] at hb
      exact hInv.td_key k b hb
  · intro k b hb
    rw [ltd k] at hb
    rw [lurl b.url]
    by_cases hk : titleDateKey E = k
    · rw [if_pos hk] at hb
      cases hb
    · rw [if_neg hk] at hb
      have hold := hInv.td_url k b hb
      have hne : E.url ≠ b.url := by
        intro hu
        rw [← hu] at hold
        rw [hEurl] at hold
        cases hold
        exact hk ((hInv.td_key k E hb).symm)
      rw [if_neg hne]
      exact hold
  · intro k b i hb hbi
    rw [ltd k] at hb
    rw [lid i]
    by_cases hk : titleDateKey E = k
    · rw [if_pos hk] at hb
      cases hb
    · rw [if_neg hk] at hb
      have hold := hInv.td_id k b i hb hbi
      have hne : E.id ≠ some i := by
        intro hEi
        rw [hEid i hEi] at hold
        cases hold
        exact hk ((hInv.td_key k E hb).symm)
      rw [if_neg hne]
      exact hold
  · intro u b hb
    rw [lurl u] at hb
    by_cases hu : E.url = u
    · rw [if_pos hu] at hb
      cases hb
    · rw [if_neg hu] at hb
      exact hInv.url_key u b hb
  · intro u b hb
    rw [lurl u] at hb
    rw [ltd (titleDateKey b)]
    by_cases hu : E.url = u
    · rw [if_pos hu] at hb
      cases hb
    · rw [if_neg hu] at hb
      have hold := hInv.url_td u b hb
      have hne : titleDateKey E ≠ titleDateKey b := by
        intro hk
        rw [← hk] at hold
        rw [hE] at hold
        cases hold
        exact hu ((hInv.url_key u E hb).symm)
      rw [if_neg hne]
      exact hold
  · intro i b hb
    rw [lid i] at hb
    by_cases hi : E.id = some i
    · rw [if_pos hi] at hb
      cases hb
    · rw [if_neg hi] at hb
      exact hInv.id_key i b hb
  · intro i b hb
    rw [lid i] at hb
    rw [ltd (titleDateKey b)]
    by_cases hi : E.id = some i
    · rw [if_pos hi] at hb
      cases hb
    · rw [if_neg hi] at hb
      have hold := hInv.id_td i b hb
      have hne : titleDateKey E ≠ titleDateKey b := by
        intro hk
        rw [← hk] at hold
        rw [hE] at hold
        cases hold
        exact hi (hInv.id_key i E hb)
      rw [if_neg hne]
      exact hold

/-! Equation lemmas for the branches of add_article. -/

/-- A record whose truthy id is already indexed is discarded. -/
theorem add_article_of_idMatch {s : SetOfUniqueArticles} {a : Article}
    (h : idMatches s a = true) : add_article s a = s := by
  simp [add_article, h]

/-- A record whose url is already indexed is discarded. -/
theorem add_article_of_urlMatch {s : SetOfUniqueArticles} {a : Article}
    (h1 : idMatches s a = false)
    (h2 : (odGet a.url s.articles_by_url).isSome = true) :
    add_article s a = s := by
  simp [add_article, h1, h2]

/-- A record colliding with no index is added to all dictionaries. -/
theorem add_article_fresh {s : SetOfUniqueArticles} {a : Article}
    (h1 : idMatches s a = false)
    (h2 : odGet a.url s.articles_by_url = none)
    (h3 : odGet (titleDateKey a) s.articles_by_title_date = none) :
    add_article s a = addToAllDicts s a (titleDateKey a) := by
  simp [add_article, h1, h2, h3]

/-- Prefix-dominance branch: the colliding retained record is removed from
every index and the new record inserted everywhere. -/
theorem add_article_replace {s : SetOfUniqueArticles} {a E : Article}
    (h1 : idMatches s a = false)
    (h2 : odGet a.url s.articles_by_url = none)
    (h3 : odGet (titleDateKey a) s.articles_by_title_date = some E)
    (h4 : dominates E a) :
    add_article s a =
      addToAllDicts (removeFromAllDicts s E) a (titleDateKey a) := by
  rcases h4 with ⟨h4a, h4b⟩
  simp [add_article, h1, h2, h3, h4a, h4b]

/-- Collision without dominance: the new record is discarded. -/
theorem add_article_keep {s : SetOfUniqueArticles} {a E : Article}
    (h1 : idMatches s a = false)
    (h2 : odGet a.url s.articles_by_url = none)
    (h3 : odGet (titleDateKey a) s.articles_by_title_date = some E)
    (h4 : ¬dominates E a) :
    add_article s a = s := by
  unfold dominates at h4
  simp only [add_article, h1, Bool.false_eq_true, if_false, h2,
    Option.isSome_none, h3]
  rw [if_neg h4]

/-- A false idMatches guard means every truthy id of the record misses the
id index. -/
theorem id_lookup_of_not_idMatches {s : SetOfUniqueArticles} {a : Article}
    (h : idMatches s a = false) :
    ∀ i, a.id = some i → odGet i s.articles_by_id = none := by
  intro i hi
  unfold idMatches at h
  rw [hi] at h
  have h2 : (odGet i s.articles_by_id).isSome = false := h
  cases hx : odGet i s.articles_by_id with
  | none => rfl
  | some b =>
    rw [hx] at h2
    simp at h2

/-- Replacement preserves the invariant. -/
theorem inv_replace {s : SetOfUniqueArticles} {E a : Article} (hInv : Inv s)
    (hE : odGet (titleDateKey a) s.articles_by_title_date = some E)
    (hid : ∀ i, a.id = some i → odGet i s.articles_by_id = none)
    (hurl : odGet a.url s.articles_by_url = none) :
    Inv (addToAllDicts (removeFromAllDicts s E) a (titleDateKey a)) := by
  have hkE : titleDateKey a = titleDateKey E := hInv.td_key _ _ hE
  have hs1 : Inv (removeFromAllDicts s E) := inv_remove hInv (hkE ▸ hE)
  apply inv_addToAll hs1
  · intro i hi
    rw [remove_lookup_id hInv.nodup_id]
    by_cases hEi : E.id = some i
    · rw [if_pos hEi]
    · rw [if_neg hEi]
      exact hid i hi
  · rw [remove_lookup_url hInv.nodup_url]
    by_cases hEu : E.url = a.url
    · rw [if_pos hEu]
    · rw [if_neg hEu]
      exact hurl
  · rw [remove_lookup_td hInv.nodup_td]
    rw [if_pos hkE.symm]

/-- Every insert preserves the invariant. -/
theorem inv_add {s : SetOfUniqueArticles} (a : Article) (hInv : Inv s) :
    Inv (add_article s a) := by
  cases h1 : idMatches s a with
  | true =>
    rw [add_article_of_idMatch h1]
    exact hInv
  | false =>
    cases h2 : odGet a.url s.articles_by_url with
    | some b =>
      rw [add_article_of_urlMatch h1 (by simp [h2])]
      exact hInv
    | none =>
      cases h3 : odGet (titleDateKey a) s.articles_by_title_date with
      | none =>
        rw [add_article_fresh h1 h2 h3]
        exact inv_addToAll hInv (id_lookup_of_not_idMatches h1) h2 h3
      | some E =>
        by_cases h4 : dominates E a
        · rw [add_article_replace h1 h2 h3 h4]
          exact inv_replace hInv h3 (id_lookup_of_not_idMatches h1) h2
        · rw [add_article_keep h1 h2 h3 h4]
          exact hInv

theorem inv_foldl {s : SetOfUniqueArticles} (l : List Article) (hInv : Inv s) :
    Inv (l.foldl add_article s) := by
  induction l generalizing s with
  | nil => exact hInv
  | cons a t ih => exact ih (inv_add a hInv)

/-- Every set reachable by seeding and inserts satisfies the invariant. -/
theorem inv_ofList (l : List Article) : Inv (ofList l) :=
  inv_foldl l inv_emptySet

/-! Inserting a list of pairwise non-colliding records. -/

theorem idMatches_of_freshFor {s : SetOfUniqueArticles} {a : Article}
    (h : FreshFor s a) : idMatches s a = false := by
  unfold idMatches
  cases ha : a.id with
  | none => rfl
  | some i =>
    show (odGet i s.articles_by_id).isSome = false
    rw [h.1 i ha]
    rfl

theorem add_article_of_freshFor {s : SetOfUniqueArticles} {a : Article}
    (h : FreshFor s a) :
    add_article s a = addToAllDicts s a (titleDateKey a) :=
  add_article_fresh (idMatches_of_freshFor h) h.2.1 h.2.2

theorem freshFor_addToAll {s : SetOfUniqueArticles} {a b : Article}
    (hb : FreshFor s b) (hab : Distinct2 a b) :
    FreshFor (addToAllDicts s a (titleDateKey a)) b := by
  refine ⟨?_, ?_, ?_⟩
  · intro i hi
    rw [addToAll_lookup_id]
    rw [if_neg (fun ha => hab.1 i ha hi)]
    exact hb.1 i hi
  · rw [addToAll_lookup_url]
    rw [if_neg hab.2.1]
    exact hb.2.1
  · rw [addToAll_lookup_td]
    rw [if_neg hab.2.2]
    exact hb.2.2

theorem foldl_fresh_td {l : List Article} :
    ∀ {s : SetOfUniqueArticles}, l.Pairwise Distinct2 →
    (∀ a ∈ l, FreshFor s a) →
    (l.foldl add_article s).articles_by_title_date =
      s.articles_by_title_date ++ l.map (fun a => (titleDateKey a, a)) := by
  induction l with
  | nil => intro s _ _; simp
  | cons a t ih =>
    intro s hp hf
    have ha : FreshFor s a := hf a (List.mem_cons_self a t)
    rw [List.foldl_cons, add_article_of_freshFor ha]
    have hstep : ∀ b ∈ t, FreshFor (addToAllDicts s a (titleDateKey a)) b :=
      fun b hbmem =>
        freshFor_addToAll (hf b (List.mem_cons_of_mem a hbmem))
          ((List.pairwise_cons.mp hp).1 b hbmem)
    rw [ih (List.pairwise_cons.mp hp).2 hstep]
    show odSet (titleDateKey a) a s.articles_by_title_date ++ _ = _
    rw [odSet_of_none ha.2.2]
    simp

theorem freshFor_emptySet (a : Article) : FreshFor emptySet a :=
  ⟨fun _ _ => rfl, rfl, rfl⟩

/-- Seeding a set with pairwise non-colliding records retains them all, in
order. -/
theorem get_articles_ofList_fresh {l : List Article}
    (hp : l.Pairwise Distinct2) : get_articles (ofList l) = l := by
  unfold get_articles ofList
  rw [foldl_fresh_td hp (fun a _ => freshFor_emptySet a)]
  show ([] ++ l.map fun a => (titleDateKey a, a)).map Prod.snd = l
  rw [List.nil_append, List.map_map]
  have hcomp : (Prod.snd ∘ fun a : Article => (titleDateKey a, a)) = id := rfl
  rw [hcomp, List.map_id]

theorem setSize_ofList_fresh {l : List Article}
    (hp : l.Pairwise Distinct2) : setSize (ofList l) = l.length := by
  unfold setSize ofList
  rw [foldl_fresh_td hp (fun a _ => freshFor_emptySet a)]
  show ([] ++ l.map fun a => (titleDateKey a, a)).length = l.length
  simp

/-- The retained records of an invariant-satisfying set are pairwise
distinct under all three identity keys. -/
theorem inv_pairwise {s : SetOfUniqueArticles} (hInv : Inv s) :
    (get_articles s).Pairwise Distinct2 := by
  unfold get_articles
  rw [List.pairwise_map]
  have hkeys : s.articles_by_title_date.Pairwise (fun p q => p.1 ≠ q.1) :=
    List.pairwise_map.mp hInv.nodup_td
  refine hkeys.imp_of_mem ?_
  intro p q hpmem hqmem hpq
  have hp : odGet p.1 s.articles_by_title_date = some p.2 :=
    odGet_of_mem hInv.nodup_td (by simpa using hpmem)
  have hq : odGet q.1 s.articles_by_title_date = some q.2 :=
    odGet_of_mem hInv.nodup_td (by simpa using hqmem)
  have hpk : p.1 = titleDateKey p.2 := hInv.td_key _ _ hp
  have hqk : q.1 = titleDateKey q.2 := hInv.td_key _ _ hq
  have hkne : titleDateKey p.2 ≠ titleDateKey q.2 := by
    rw [← hpk, ← hqk]
    exact hpq
  refine ⟨?_, ?_, hkne⟩
  · intro i hpi hqi
    have h1 := hInv.td_id _ _ _ hp hpi
    have h2 := hInv.td_id _ _ _ hq hqi
    rw [h1] at h2
    exact hkne (by rw [Option.some.inj h2])
  · intro huu
    have h1 := hInv.td_url _ _ hp
    have h2 := hInv.td_url _ _ hq
    rw [huu] at h1
    rw [h1] at h2
    exact hkne (by rw [Option.some.inj h2])

/-- A record none of whose truthy ids is indexed fails the idMatches guard. -/
theorem idMatches_eq_false {s : SetOfUniqueArticles} {a : Article}
    (hid : ∀ i, a.id = some i → odGet i s.articles_by_id = none) :
    idMatches s a = false := by
  unfold idMatches
  cases ha : a.id with
  | none => rfl
  | some i =>
    show (odGet i s.articles_by_id).isSome = false
    rw [hid i ha]
    rfl

/-! Claim theorems. -/

/-- Shared specification of the replacement branch: what every index looks
like after a dominating record N displaces the retained record E. -/
theorem add_replace_spec {s : SetOfUniqueArticles} {E N : Article}
    (hInv : Inv s)
    (hE : odGet (titleDateKey N) s.articles_by_title_date = some E)
    (hid : ∀ i, N.id = some i → odGet i s.articles_by_id = none)
    (hurl : odGet N.url s.articles_by_url = none)
    (hdom : dominates E N) :
    odGet (titleDateKey N) (add_article s N).articles_by_title_date = some N ∧
    setSize (add_article s N) = setSize s ∧
    odGet N.url (add_article s N).articles_by_url = some N ∧
    (∀ i, N.id = some i → odGet i (add_article s N).articles_by_id = some N) ∧
    (∀ i, E.id = some i → odGet i (add_article s N).articles_by_id = none) ∧
    odGet E.url (add_article s N).articles_by_url = none := by
  have hm : idMatches s N = false := idMatches_eq_false hid
  have heq := add_article_replace hm hurl hE hdom
  have hkeq : titleDateKey N = titleDateKey E := hInv.td_key _ _ hE
  have hEurl : odGet E.url s.articles_by_url = some E := hInv.td_url _ _ hE
  have hEurlne : E.url ≠ N.url := by
    intro h
    rw [h, hurl] at hEurl
    exact Option.noConfusion hEurl
  have hEidne : ∀ i, E.id = some i → N.id ≠ some i := by
    intro i hEi hNi
    have h1 := hInv.td_id _ _ _ hE hEi
    rw [hid i hNi] at h1
    exact Option.noConfusion h1
  rw [heq]
  refine ⟨?_, ?_, ?_, ?_, ?_, ?_⟩
  · rw [addToAll_lookup_td, if_pos rfl]
  · show (odSet (titleDateKey N) N
      (removeFromAllDicts s E).articles_by_title_date).length =
      s.articles_by_title_date.length
    have h5 : odGet (titleDateKey N)
        (removeFromAllDicts s E).articles_by_title_date = none := by
      rw [remove_lookup_td hInv.nodup_td, if_pos hkeq.symm]
    rw [odSet_of_none h5, List.length_append]
    show (odPop (titleDateKey E) s.articles_by_title_date).length + 1 =
      s.articles_by_title_date.length
    exact length_odPop_of_some (hkeq ▸ hE)
  · rw [addToAll_lookup_url, if_pos rfl]
  · intro i hi
    rw [addToAll_lookup_id, if_pos hi]
  · intro i hi
    rw [addToAll_lookup_id, if_neg (hEidne i hi),
      remove_lookup_id hInv.nodup_id, if_pos hi]
  · rw [addToAll_lookup_url, if_neg (fun h => hEurlne h.symm),
      remove_lookup_url hInv.nodup_url, if_pos rfl]

/-- C2: prefix-dominance replacement.  If a state holds a record E under the
normalized title-date key of N, the id and url of N collide with no retained
record, and the normalized body of N differs from that of E while starting
with the first floor(0.9 * len) characters of it, then inserting N replaces
E: retrieval at the key returns N, N is indexed under its url and truthy id,
E is purged from the url and id indices, and the size is unchanged. -/
theorem prefix_dominance_replacement {s : SetOfUniqueArticles} {E N : Article}
    (hInv : Inv s)
    (hE : odGet (titleDateKey N) s.articles_by_title_date = some E)
    (hid : ∀ i, N.id = some i → odGet i s.articles_by_id = none)
    (hurl : odGet N.url s.articles_by_url = none)
    (hdom : dominates E N) :
    odGet (titleDateKey N) (add_article s N).articles_by_title_date = some N ∧
    setSize (add_article s N) = setSize s ∧
    odGet N.url (add_article s N).articles_by_url = some N ∧
    (∀ i, N.id = some i → odGet i (add_article s N).articles_by_id = some N) ∧
    (∀ i, E.id = some i → odGet i (add_article s N).articles_by_id = none) ∧
    odGet E.url (add_article s N).articles_by_url = none :=
  add_replace_spec hInv hE hid hurl hdom

/-- Witness for C2: record A with body Hello world is replaced by record B
with the same normalized title and date and body Hello world with a trailing
period; retrieval returns the body of B and the size stays 1. -/
theorem prefix_dominance_replacement_witness :
    (odGet (titleDateKey artHelloB)
      (add_article (ofList [artHelloA]) artHelloB).articles_by_title_date =
        some artHelloB ∧
      setSize (add_article (ofList [artHelloA]) artHelloB) =
        setSize (ofList [artHelloA]) ∧
      odGet artHelloB.url
        (add_article (ofList [artHelloA]) artHelloB).articles_by_url =
        some artHelloB ∧
      (∀ i, artHelloB.id = some i →
        odGet i (add_article (ofList [artHelloA]) artHelloB).articles_by_id =
          some artHelloB) ∧
      (∀ i, artHelloA.id = some i →
        odGet i (add_article (ofList [artHelloA]) artHelloB).articles_by_id =
          none) ∧
      odGet artHelloA.url
        (add_article (ofList [artHelloA]) artHelloB).articles_by_url = none) ∧
    get_articles (ofList [artHelloA, artHelloB]) = [artHelloB] ∧
    setSize (ofList [artHelloA, artHelloB]) = 1 :=
  ⟨prefix_dominance_replacement (inv_ofList [artHelloA]) (by decide)
      (fun i hi => by injection hi with h; subst h; decide) (by decide)
      (by decide),
    by decide, by decide⟩

/-- C1 counterexample: inserting records with keys K1, K2, K3 in that order
and then triggering a prefix-dominance replacement on K2 does NOT leave the
retrieval order K1, K2, K3: the code pops the key and re-inserts it, so the
key moves to the end and the order becomes K1, K3, K2. -/
theorem ordering_replacement_counterexample :
    titleDateKey artK2b = titleDateKey artK2 ∧
    dominates artK2 artK2b ∧
    get_articles (ofList [artK1, artK2, artK3, artK2b]) =
      [artK1, artK3, artK2b] ∧
    ¬ (get_articles (ofList [artK1, artK2, artK3, artK2b])).map titleDateKey =
      [titleDateKey artK1, titleDateKey artK2, titleDateKey artK3] := by
  decide

/-- C1 amended: a prefix-dominance replacement does not mutate the value at
the original position of the key; it removes the key from its position and
appends the new record at the end of the retrieval order. -/
theorem replacement_moves_key_to_end {s : SetOfUniqueArticles} {E N : Article}
    (hInv : Inv s)
    (hE : odGet (titleDateKey N) s.articles_by_title_date = some E)
    (hid : ∀ i, N.id = some i → odGet i s.articles_by_id = none)
    (hurl : odGet N.url s.articles_by_url = none)
    (hdom : dominates E N) :
    get_articles (add_article s N) =
      (odPop (titleDateKey N) s.articles_by_title_date).map Prod.snd ++ [N] := by
  have hm : idMatches s N = false := idMatches_eq_false hid
  have hkeq : titleDateKey N = titleDateKey E := hInv.td_key _ _ hE
  rw [add_article_replace hm hurl hE hdom]
  show (odSet (titleDateKey N) N
    (odPop (titleDateKey E) s.articles_by_title_date)).map Prod.snd = _
  rw [← hkeq]
  have h5 : odGet (titleDateKey N)
      (odPop (titleDateKey N) s.articles_by_title_date) = none :=
    odGet_odPop_self hInv.nodup_td
  rw [odSet_of_none h5, List.map_append]
  rfl

/-- Witness for the amended C1: on the three-key scenario the retrieval
order after the replacement on K2 is K1, K3, K2. -/
theorem replacement_moves_key_to_end_witness :
    get_articles (add_article (ofList [artK1, artK2, artK3]) artK2b) =
      (odPop (titleDateKey artK2b)
        (ofList [artK1, artK2, artK3]).articles_by_title_date).map Prod.snd ++
        [artK2b] :=
  @replacement_moves_key_to_end (ofList [artK1, artK2, artK3]) artK2 artK2b
    (inv_ofList [artK1, artK2, artK3]) (by decide)
    (fun i hi => nomatch hi) (by decide) (by decide)

/-- C3: the insert checks apply in the fixed order id, then url, then
title+date.  A record with a truthy indexed id is discarded with no upgrade
attempt regardless of the other fields; otherwise a record with an indexed
url is discarded; and of two records with the same truthy id only the first
inserted is retained. -/
theorem insert_priority_order :
    (∀ (s : SetOfUniqueArticles) (a : Article) (i : PStr), a.id = some i →
      (odGet i s.articles_by_id).isSome = true → add_article s a = s) ∧
    (∀ (s : SetOfUniqueArticles) (a : Article),
      (∀ i, a.id = some i → odGet i s.articles_by_id = none) →
      (odGet a.url s.articles_by_url).isSome = true → add_article s a = s) ∧
    (∀ (r1 r2 : Article) (i : PStr), r1.id = some i → r2.id = some i →
      get_articles (ofList [r1, r2]) = [r1] ∧ setSize (ofList [r1, r2]) = 1) := by
  refine ⟨?_, ?_, ?_⟩
  · intro s a i ha hsome
    apply add_article_of_idMatch
    unfold idMatches
    rw [ha]
    exact hsome
  · intro s a hid hsome
    exact add_article_of_urlMatch (idMatches_eq_false hid) hsome
  · intro r1 r2 i h1 h2
    have hs1 : add_article emptySet r1 =
        addToAllDicts emptySet r1 (titleDateKey r1) :=
      add_article_of_freshFor (freshFor_emptySet r1)
    have hm : idMatches (addToAllDicts emptySet r1 (titleDateKey r1)) r2 =
        true := by
      unfold idMatches
      rw [h2]
      show (odGet i
        (addToAllDicts emptySet r1 (titleDateKey r1)).articles_by_id).isSome =
        true
      rw [addToAll_lookup_id, if_pos h1]
      rfl
    have hall : ofList [r1, r2] = addToAllDicts emptySet r1 (titleDateKey r1) := by
      show add_article (add_article emptySet r1) r2 = _
      rw [hs1, add_article_of_idMatch hm]
    rw [hall]
    exact ⟨rfl, rfl⟩

/-- Witness for C3: a record repeating the id of a retained record is a
no-op, and of two records sharing the id xyz but with different urls,
titles and bodies only the first is retained. -/
theorem insert_priority_order_witness :
    add_article (ofList [artId1]) artId1 = ofList [artId1] ∧
    (get_articles (ofList [artId1, artId2]) = [artId1] ∧
      setSize (ofList [artId1, artId2]) = 1) :=
  ⟨insert_priority_order.1 (ofList [artId1]) artId1 ("xyz".toList) rfl
      (by decide),
    insert_priority_order.2.2 artId1 artId2 ("xyz".toList) rfl rfl⟩

/-- C4: after any sequence of inserts from the empty set, the retained
records are pairwise distinct under truthy id, url and normalized title+date,
every record reachable from one index is reachable from the other two
whenever the corresponding key is present, and a removal purges the record
from all three indices. -/
theorem three_key_uniqueness (l : List Article) :
    (get_articles (ofList l)).Pairwise Distinct2 ∧
    (∀ k a, odGet k (ofList l).articles_by_title_date = some a →
      odGet a.url (ofList l).articles_by_url = some a ∧
      ∀ i, a.id = some i → odGet i (ofList l).articles_by_id = some a) ∧
    (∀ u a, odGet u (ofList l).articles_by_url = some a →
      u = a.url ∧
      odGet (titleDateKey a) (ofList l).articles_by_title_date = some a) ∧
    (∀ i a, odGet i (ofList l).articles_by_id = some a →
      a.id = some i ∧
      odGet (titleDateKey a) (ofList l).articles_by_title_date = some a) ∧
    (∀ E : Article,
      odGet E.url (removeFromAllDicts (ofList l) E).articles_by_url = none ∧
      odGet (titleDateKey E)
        (removeFromAllDicts (ofList l) E).articles_by_title_date = none ∧
      ∀ i, E.id = some i →
        odGet i (removeFromAllDicts (ofList l) E).articles_by_id = none) := by
  have hInv := inv_ofList l
  refine ⟨inv_pairwise hInv, ?_, ?_, ?_, ?_⟩
  · intro k a ha
    exact ⟨hInv.td_url k a ha, fun i hi => hInv.td_id k a i ha hi⟩
  · intro u a ha
    exact ⟨hInv.url_key u a ha, hInv.url_td u a ha⟩
  · intro i a ha
    exact ⟨hInv.id_key i a ha, hInv.id_td i a ha⟩
  · intro E
    refine ⟨?_, ?_, ?_⟩
    · rw [remove_lookup_url hInv.nodup_url, if_pos rfl]
    · rw [remove_lookup_td hInv.nodup_td, if_pos rfl]
    · intro i hi
      rw [remove_lookup_id hInv.nodup_id, if_pos hi]

/-- Witness for C4: in a one-record set the retained record is reachable
from the url and id indices as well, and removing it empties all three. -/
theorem three_key_uniqueness_witness :
    (odGet artHelloA.url (ofList [artHelloA]).articles_by_url =
        some artHelloA ∧
      ∀ i, artHelloA.id = some i →
        odGet i (ofList [artHelloA]).articles_by_id = some artHelloA) ∧
    odGet artHelloA.url
      (removeFromAllDicts (ofList [artHelloA]) artHelloA).articles_by_url =
      none :=
  ⟨(three_key_uniqueness [artHelloA]).2.1 (titleDateKey artHelloA) artHelloA
      (by decide),
    ((three_key_uniqueness [artHelloA]).2.2.2.2 artHelloA).1⟩

/-- C5: a colliding record whose normalized body equals that of the retained
record, or neither equals it nor extends its 90 percent prefix, is discarded
and the whole state is exactly unchanged. -/
theorem collision_discard_noop {s : SetOfUniqueArticles} {E N : Article}
    (hE : odGet (titleDateKey N) s.articles_by_title_date = some E)
    (hid : ∀ i, N.id = some i → odGet i s.articles_by_id = none)
    (hurl : odGet N.url s.articles_by_url = none)
    (hbody : normalizeString N.body = normalizeString E.body ∨
      (normalizeString N.body ≠ normalizeString E.body ∧
        ((normalizeString E.body).take
          ((normalizeString E.body).length * 9 / 10)).isPrefixOf
          (normalizeString N.body) = false)) :
    add_article s N = s := by
  apply add_article_keep (idMatches_eq_false hid) hurl hE
  intro hdom
  rcases hbody with hb | ⟨hne, hpre⟩
  · exact hdom.1 hb
  · rw [hdom.2] at hpre
    exact Bool.noConfusion hpre

/-- Witness for C5: a record with the same title and date but an unrelated
body is discarded and the set is unchanged. -/
theorem collision_discard_noop_witness :
    add_article (ofList [artStock]) artStock2 = ofList [artStock] ∧
    get_articles (ofList [artStock, artStock2]) = [artStock] :=
  ⟨@collision_discard_noop (ofList [artStock]) artStock artStock2 (by decide)
      (fun i hi => nomatch hi) (by decide) (Or.inr (by decide)),
    by decide⟩

/-- Inserting a record that hits no index grows the size by exactly one. -/
theorem setSize_add_fresh {s : SetOfUniqueArticles} {r : Article}
    (h : FreshFor s r) : setSize (add_article s r) = setSize s + 1 := by
  rw [add_article_of_freshFor h]
  show (odSet (titleDateKey r) r s.articles_by_title_date).length = _
  rw [odSet_of_none h.2.2, List.length_append]
  rfl

/-- C6: limit n yields a new set holding exactly min(n, size) records (so at
most the first n of the ordered retrieval), and later inserts into the copy
are not bounded by n: a record hitting no index of the copy grows it past n. -/
theorem limit_bounded_copy (l : List Article) (n : Nat) :
    setSize (limit (ofList l) n) = min n (setSize (ofList l)) ∧
    ∀ r, FreshFor (limit (ofList l) n) r →
      setSize (add_article (limit (ofList l) n) r) =
        min n (setSize (ofList l)) + 1 := by
  have hp : (get_articles (ofList l)).Pairwise Distinct2 :=
    inv_pairwise (inv_ofList l)
  have hptake : ((get_articles (ofList l)).take n).Pairwise Distinct2 :=
    hp.sublist (List.take_sublist n (get_articles (ofList l)))
  have hlen : (get_articles (ofList l)).length = setSize (ofList l) := by
    unfold get_articles setSize
    rw [List.length_map]
  have hsize : setSize (limit (ofList l) n) = min n (setSize (ofList l)) := by
    show setSize (ofList ((get_articles (ofList l)).take n)) = _
    rw [setSize_ofList_fresh hptake, List.length_take, hlen]
  refine ⟨hsize, ?_⟩
  intro r hr
  rw [setSize_add_fresh hr, hsize]

/-- Witness for C6: ten unique records limited to 3 give size 3; inserting
an eleventh distinct record into the copy grows it to 4 while the original
set keeps size 10. -/
theorem limit_bounded_copy_witness :
    setSize (limit (ofList tenArticles) 3) = 3 ∧
    setSize (add_article (limit (ofList tenArticles) 3) artEleventh) = 4 ∧
    setSize (ofList tenArticles) = 10 :=
  ⟨((limit_bounded_copy tenArticles 3).1).trans (by decide),
    ((limit_bounded_copy tenArticles 3).2 artEleventh
      (show FreshFor (limit (ofList tenArticles) 3) artEleventh from
        ⟨(fun i hi => nomatch hi), by decide, by decide⟩)).trans (by decide),
    by decide⟩

/-- C7: inserting the same record twice leaves a one-element set unchanged,
and more generally a record that resolves to an existing identity and loses
the tie-break leaves the state equal to its prior value. -/
theorem insert_idempotent :
    (∀ r : Article,
      add_article (add_article emptySet r) r = add_article emptySet r ∧
      setSize (add_article emptySet r) = 1) ∧
    (∀ (s : SetOfUniqueArticles) (r : Article),
      idMatches s r = true ∨
      ((∀ i, r.id = some i → odGet i s.articles_by_id = none) ∧
        (odGet r.url s.articles_by_url).isSome = true) ∨
      ((∀ i, r.id = some i → odGet i s.articles_by_id = none) ∧
        odGet r.url s.articles_by_url = none ∧
        ∃ E, odGet (titleDateKey r) s.articles_by_title_date = some E ∧
          ¬ dominates E r) →
      add_article s r = s) := by
  constructor
  · intro r
    have hs1 : add_article emptySet r =
        addToAllDicts emptySet r (titleDateKey r) :=
      add_article_of_freshFor (freshFor_emptySet r)
    constructor
    · rw [hs1]
      cases hrid : r.id with
      | some i =>
        apply add_article_of_idMatch
        unfold idMatches
        rw [hrid]
        show (odGet i
          (addToAllDicts emptySet r (titleDateKey r)).articles_by_id).isSome =
          true
        rw [addToAll_lookup_id, if_pos hrid]
        rfl
      | none =>
        apply add_article_of_urlMatch
        · apply idMatches_eq_false
          intro i hi
          rw [hrid] at hi
          exact Option.noConfusion hi
        · rw [addToAll_lookup_url, if_pos rfl]
          rfl
    · rw [hs1]
      rfl
  · intro s r h
    rcases h with h | ⟨hid, hurl⟩ | ⟨hid, hurl, E, hE, hdom⟩
    · exact add_article_of_idMatch h
    · exact add_article_of_urlMatch (idMatches_eq_false hid) hurl
    · exact add_article_keep (idMatches_eq_false hid) hurl hE hdom

/-- Witness for C7: inserting artHelloA twice keeps the state and size 1. -/
theorem insert_idempotent_witness :
    add_article (ofList [artHelloA]) artHelloA = ofList [artHelloA] ∧
    setSize (add_article emptySet artHelloA) = 1 :=
  ⟨insert_idempotent.2 (ofList [artHelloA]) artHelloA (Or.inl (by decide)),
    (insert_idempotent.1 artHelloA).2⟩

/-- C8: the prefix-dominance heuristic can replace a record with one whose
normalized body is strictly shorter, contrary to the docstring sentence that
the article with the longer body is kept: after the record with body Hello
world followed by a period, the same-key record with the shorter body Hello
world replaces it. -/
theorem shorter_body_can_replace_longer :
    titleDateKey artShort = titleDateKey artLong ∧
    (normalizeString artShort.body).length <
      (normalizeString artLong.body).length ∧
    get_articles (ofList [artLong, artShort]) = [artShort] ∧
    setSize (ofList [artLong, artShort]) = 1 := by
  decide

/-- C9: a retained record whose body normalizes to the empty string is
always dominated: any colliding record with a non-empty normalized body and
non-colliding id and url replaces it, because the truncated prefix of the
empty body is empty and every body starts with it. -/
theorem empty_body_always_dominated {s : SetOfUniqueArticles} {E N : Article}
    (hInv : Inv s)
    (hE : odGet (titleDateKey N) s.articles_by_title_date = some E)
    (hempty : normalizeString E.body = [])
    (hnon : normalizeString N.body ≠ [])
    (hid : ∀ i, N.id = some i → odGet i s.articles_by_id = none)
    (hurl : odGet N.url s.articles_by_url = none) :
    odGet (titleDateKey N) (add_article s N).articles_by_title_date = some N ∧
    setSize (add_article s N) = setSize s := by
  have hdom : dominates E N := by
    constructor
    · rw [hempty]
      exact hnon
    · rw [hempty]
      cases hnb : normalizeString N.body with
      | nil => exact absurd hnb hnon
      | cons c cs => rfl
  have h := add_replace_spec hInv hE hid hurl hdom
  exact ⟨h.1, h.2.1⟩

/-- Witness for C9: a record with the default empty body is replaced by a
same-key record with any non-empty body. -/
theorem empty_body_always_dominated_witness :
    odGet (titleDateKey artFullBody)
      (add_article (ofList [artEmptyBody]) artFullBody).articles_by_title_date =
      some artFullBody ∧
    setSize (add_article (ofList [artEmptyBody]) artFullBody) =
      setSize (ofList [artEmptyBody]) :=
  @empty_body_always_dominated (ofList [artEmptyBody]) artEmptyBody artFullBody
    (inv_ofList [artEmptyBody]) (by decide) (by decide) (by decide)
    (fun i hi => nomatch hi) (by decide)

/-- C10: re-deduplicating the ordered retrieval of a reachable set is the
identity: seeding a fresh set with get_articles output reproduces the same
ordered retrieval element for element. -/
theorem rededup_identity (l : List Article) :
    get_articles (ofList (get_articles (ofList l))) = get_articles (ofList l) :=
  get_articles_ofList_fresh (inv_pairwise (inv_ofList l))

end Sociaty
